import Mathlib

/-!
Shallow embedding of the transition-based UCCA parser driver
(parsing/parse.py) and proofs about its control flow: action prediction
with fallback, perceptron-update decisions during training, multi-epoch
training with dev-based model selection, k-fold cross-validation
splitting, loop detection, and per-input failure handling.

Cooperating modules (parsing/action.py, parsing/state.py,
parsing/oracle.py, parsing/averaged_perceptron.py) are not part of the
embedded sources; where their behavior matters it is modelled from the
specification and kept abstract (type parameters and function
parameters) otherwise.
-/

namespace UccaParse

/-- Modelled from the spec: parsing/action.py is not among the embedded
sources.  An action carries a stable integer id (its classifier class
index), a kind tag, an optional label, and optional gold metadata
(the orig node copied from the oracle).  Per the spec, identity is by
(kind, label) only, and exactly one kind is distinguished as swap. -/
structure Action where
  id : Nat
  kind : Nat
  label : Option String := none
  orig : Option Nat := none
deriving Repr, DecidableEq, Inhabited

/-- Modelled from the spec: equality of actions is by (kind, label),
not by numeric id, so an oracle-built action matches a classifier-chosen
action even when constructed separately. -/
def Action.aeq (a b : Action) : Bool :=
  a.kind == b.kind && a.label == b.label

/-- Modelled from the spec: the single distinguished swap kind tag. -/
def swapKind : Nat := 6

/-- Modelled from the spec: whether an action is the distinguished swap
action, determined by its kind. -/
def Action.is_swap (a : Action) : Bool :=
  a.kind == swapKind

/-- Modelled from the spec: the static id-to-action table lookup
(Action.by_id).  An out-of-range id is a contract violation in the
source; the total model returns a default there, and every theorem using
the lookup stays within range. -/
def Action.by_id (all : List Action) (i : Nat) : Action :=
  all.getD i default

/-- Embedding of Parser.check_loop (parse.py lines 217-226): hash the
current state, fail if the hash is already in the history, otherwise add
it.  The state hash is abstracted to a natural number and the history
set to a list. -/
def check_loop (h : Nat) (history : List Nat) : Except String (List Nat) :=
  if h ∈ history then Except.error "Transition loop"
  else Except.ok (h :: history)

/-- Driver for loop checking across one input, as parse_passage does at
the top of every iteration (parse.py lines 172-174): fold check_loop
over the sequence of state fingerprints, returning the zero-based index
of the iteration at which the loop error is raised, or none. -/
def firstRepeatIdx (history : List Nat) : List Nat → Option Nat
  | [] => none
  | h :: rest =>
    match check_loop h history with
    | Except.error _ => some 0
    | Except.ok history1 => (firstRepeatIdx history1 rest).map (· + 1)

/-- Loop checking for a whole input starting from the empty history. -/
def runLoopCheck (hashes : List Nat) : Option Nat :=
  firstRepeatIdx [] hashes

/-- Value bound to predicted_passage in Parser.parse (parse.py lines
133-135): either the original passage object itself, or a graph
materialized from the parser state by create_passage. -/
inductive Predicted (P G : Type) where
  | orig (p : P)
  | graph (g : G)
deriving Repr, DecidableEq

/-- Per-input outcome of the loop body of Parser.parse: the one-line
diagnostic logged on failure, the failed flag, the original passage, and
the first element of the yielded triplet. -/
structure InputResult (P G : Type) where
  logged : Option String
  failed : Bool
  origPassage : P
  predicted : Predicted P G
deriving Repr, DecidableEq

/-- Embedding of the per-input body of Parser.parse (parse.py lines
124-152).  The outcome argument is the result of parse_passage for this
input (ok, or a ParserException message); createPassage models
state.create_passage as a function of the assert_proper flag.  In train
mode a ParserException is re-raised (Except.error); otherwise it is
logged, the input is marked failed, and the body still computes
predicted_passage: create_passage whenever not train or verify holds,
else the original passage object. -/
def processPassage {P G : Type} (train verify : Bool) (passage : P)
    (createPassage : Bool → G) (outcome : Except String Unit) :
    Except String (InputResult P G) :=
  match outcome with
  | Except.error e =>
    if train then Except.error e
    else Except.ok
      { logged := some e
        failed := true
        origPassage := passage
        predicted :=
          if !train || verify then Predicted.graph (createPassage verify)
          else Predicted.orig passage }
  | Except.ok _ =>
    Except.ok
      { logged := none
        failed := false
        origPassage := passage
        predicted :=
          if !train || verify then Predicted.graph (createPassage verify)
          else Predicted.orig passage }

/-- Embedding of the for-loop of Parser.parse over a batch of inputs,
each given with its create_passage function and its parse_passage
outcome: results are yielded in order, and an error escaping
processPassage (train mode only) aborts the whole generator. -/
def processBatch {P G : Type} (train verify : Bool) :
    List (P × (Bool → G) × Except String Unit) →
    Except String (List (InputResult P G))
  | [] => Except.ok []
  | (p, cp, oc) :: rest =>
    match processPassage train verify p cp oc with
    | Except.error e => Except.error e
    | Except.ok r =>
      match processBatch train verify rest with
      | Except.error e => Except.error e
      | Except.ok rs => Except.ok (r :: rs)

/-- Embedding of the oracle call in parse_passage (parse.py lines
176-182): true_actions starts empty; with an oracle attached, an oracle
failure is re-raised as a ParserException in train mode and swallowed
otherwise (the step proceeds with no true actions). -/
def oracleTrueActions (train : Bool)
    (oracle : Option (Except String (List Action))) :
    Except String (List Action) :=
  match oracle with
  | none => Except.ok []
  | some (Except.ok as) => Except.ok as
  | some (Except.error _) =>
    if train then Except.error "Error in oracle during training"
    else Except.ok []

/-- Embedding of Python max(iterable, key) over a list of action ids:
returns the first element attaining the maximal key, or none on an empty
list (Python raises ValueError there). -/
def firstArgmax (key : Nat → Int) : List Nat → Option Nat
  | [] => none
  | i :: rest =>
    some (match firstArgmax key rest with
      | some b => if key b > key i then b else i
      | none => i)

/-- Embedding of Parser.select_action (parse.py lines 251-257): look the
id up in the static action table, then substitute the first true action
equal to it under the (kind, label) rule, to preserve gold metadata. -/
def select_action (all : List Action) (trueActions : List Action) (i : Nat) :
    Action :=
  let action := Action.by_id all i
  match trueActions.find? (fun t => action.aeq t) with
  | some t => t
  | none => action

/-- Embedding of reversed(sorted(scores, key=scores.get)) in
predict_action: the action ids in descending score order, obtained by a
stable ascending sort followed by a reversal, exactly as in the source. -/
def sortedIdsDesc (key : Nat → Int) (ids : List Nat) : List Nat :=
  (ids.mergeSort (fun a b => decide (key a ≤ key b))).reverse

/-- Embedding of Parser.predict_action (parse.py lines 228-249).  The
classifier scores are the key function over the id list ids (the keys of
the score dict); isValid models state.is_valid.  Take the arg-max id; if
the selected action is valid return it; otherwise scan all ids in
descending score order and return the first valid selected action,
failing with the no-valid-actions ParserException if none exists. -/
def predict_action (all : List Action) (isValid : Action → Bool)
    (ids : List Nat) (key : Nat → Int) (trueActions : List Action) :
    Except String Action :=
  match firstArgmax key ids with
  | none => Except.error "max() arg is an empty sequence"
  | some best =>
    let bestAction := select_action all trueActions best
    if isValid bestAction then Except.ok bestAction
    else
      match ((sortedIdsDesc key ids).map (select_action all trueActions)).find?
          isValid with
      | some a => Except.ok a
      | none => Except.error "No valid actions available"

/-- Outcome of the action-decision block of parse_passage (parse.py
lines 186-200): whether the correct counter is incremented, the
perceptron update performed, if any, as (predicted id, best true id,
rate), and the action actually applied to the state. -/
structure StepDecision where
  correct : Bool
  update : Option (Nat × Nat × Rat)
  applied : Action
deriving Repr, DecidableEq

/-- Embedding of random.choice over the true actions: the uniformly
random draw is modelled by an external index reduced modulo the list
length. -/
def randChoice (l : List Action) (r : Nat) : Action :=
  l.getD (r % l.length) default

/-- Embedding of parse_passage lines 186-200.  With no true actions, or
with the predicted action among them under (kind, label) equality, the
predicted action is applied (counting it correct in the second case).
Otherwise, in training mode, the best true action id is the one with the
maximal classifier score, first-encountered order breaking ties (Python
max over the id list), the update rate is the learning rate boosted by
the importance factor exactly when the looked-up best true action is the
swap action, the perceptron update toward the best true action is
recorded, and a random choice among the true actions is applied. -/
def decideAction (all : List Action) (key : Nat → Int) (lr importance : Rat)
    (train : Bool) (predicted : Action) (trueActions : List Action)
    (rand : Nat) : StepDecision :=
  if trueActions.isEmpty then
    { correct := false, update := none, applied := predicted }
  else if trueActions.any (fun t => predicted.aeq t) then
    { correct := true, update := none, applied := predicted }
  else if train then
    let bestTrueId :=
      if trueActions.length > 1 then
        (firstArgmax key (trueActions.map Action.id)).getD 0
      else (trueActions.headD default).id
    let rate :=
      if (Action.by_id all bestTrueId).is_swap then lr * importance else lr
    { correct := false
      update := some (predicted.id, bestTrueId, rate)
      applied := randChoice trueActions rand }
  else { correct := false, update := none, applied := predicted }

/-- Abstract operations of the averaged perceptron as used by
Parser.train: loading a persisted model, producing the averaged
snapshot, and the net effect on the weights of one full training pass
over the training passages (self.parse in train mode). -/
structure TrainOps (M : Type) where
  load : String → M
  average : M → M
  runEpoch : M → M

/-- Mutable state of Parser.train across iterations (parse.py lines
58-60 initialize best_score to 0, best_model to none, and save_model to
true).  retainLog records the epochs whose averaged snapshot was
retained as best_model; saveLog records the epochs at which it was also
written to the model file. -/
structure TrainState (M : Type) where
  model : M
  learning_rate : Rat
  best_score : Rat
  save_model : Bool
  best_model : Option M
  retainLog : List Nat
  saveLog : List Nat

/-- Observable outcome of Parser.train: the returned model (None when no
epoch retained a snapshot), the final learning rate, and the number of
training iterations performed, with the retention and save logs. -/
structure TrainResult (M : Type) where
  model : Option M
  learning_rate : Rat
  epochsRun : Nat
  retainLog : List Nat
  saveLog : List Nat

/-- Embedding of one iteration of the training loop of Parser.train
(parse.py lines 61-89): run a training pass over the passages, decay the
learning rate, and, when a dev set is configured, score it and set
save_model exactly when the score is at least the best so far (also
raising best_score then); without a dev set save_model keeps its
standing value.  When save_model holds, the averaged snapshot becomes
best_model and is saved to the model file when one is configured. -/
def trainEpochStep {M : Type} (ops : TrainOps M) (decay : Rat)
    (modelFile : Option String) (dev : Option (Nat → Rat)) (s : TrainState M)
    (i : Nat) : TrainState M :=
  let model := ops.runEpoch s.model
  let lr := s.learning_rate * decay
  let save : Bool :=
    match dev with
    | none => s.save_model
    | some f => decide (f i ≥ s.best_score)
  let best :=
    match dev with
    | none => s.best_score
    | some f => if f i ≥ s.best_score then f i else s.best_score
  if save then
    { model := model, learning_rate := lr, best_score := best,
      save_model := true, best_model := some (ops.average model),
      retainLog := s.retainLog ++ [i],
      saveLog := if modelFile.isSome then s.saveLog ++ [i] else s.saveLog }
  else
    { model := model, learning_rate := lr, best_score := best,
      save_model := false, best_model := s.best_model,
      retainLog := s.retainLog, saveLog := s.saveLog }

/-- Embedding of Parser.train (parse.py lines 45-93).  With no training
passages and a configured model file, the model is loaded from the file
and returned with no training iterations; otherwise the epoch step runs
for the requested number of iterations from the initial state, and the
returned model is the retained best_model.  The dev set is abstracted to
its per-epoch aggregate F1 score. -/
def Parser.train {M P : Type} (ops : TrainOps M) (decay : Rat)
    (modelFile : Option String) (initModel : M) (initLr : Rat)
    (passages : List P) (dev : Option (Nat → Rat)) (iterations : Nat) :
    TrainResult M :=
  if passages.isEmpty then
    { model := some (match modelFile with
        | some f => ops.load f
        | none => initModel)
      learning_rate := initLr, epochsRun := 0, retainLog := [], saveLog := [] }
  else
    let final := (List.range iterations).foldl
      (trainEpochStep ops decay modelFile dev)
      { model := initModel, learning_rate := initLr, best_score := 0,
        save_model := true, best_model := none, retainLog := [], saveLog := [] }
    { model := final.best_model, learning_rate := final.learning_rate,
      epochsRun := iterations, retainLog := final.retainLog,
      saveLog := final.saveLog }

/-- Embedding of the Python stride slice all_passages[i::k] with which
main builds fold i (parse.py line 388): the elements whose position in
the shuffled input list is congruent to i modulo k. -/
def foldSlice {α : Type} (l : List α) (k i : Nat) : List α :=
  (l.enum.filter (fun p => p.1 % k == i)).map Prod.snd

/-- Dev passages of cross-validation iteration i: fold i (parse.py line
391). -/
def cvDev {α : Type} (l : List α) (k i : Nat) : List α :=
  foldSlice l k i

/-- Test passages of cross-validation iteration i: fold (i+1) mod k
(parse.py line 392). -/
def cvTest {α : Type} (l : List α) (k i : Nat) : List α :=
  foldSlice l k ((i + 1) % k)

/-- Train passages of cross-validation iteration i: the folds other than
the dev fold and the test fold, concatenated in fold order (parse.py
lines 393-395, where the identity comparison on fold objects is the
index comparison here). -/
def cvTrain {α : Type} (l : List α) (k i : Nat) : List α :=
  ((List.range k).filter
    (fun j => !(j == i) && !(j == (i + 1) % k))).flatMap (foldSlice l k)

/-- Positions (into an input list of length n) that land in fold i of a
k-fold split: the index-level picture of foldSlice. -/
def foldIdx (n k i : Nat) : List Nat :=
  (List.range n).filter (fun j => j % k == i)

/-- Best dev score seen before epoch i, starting from the initial best
score of 0 that Parser.train uses. -/
def bestScoreUpTo (f : Nat → Rat) (i : Nat) : Rat :=
  ((List.range i).map f).foldl max 0

/-- Epochs among the first n whose dev score is at least the best score
seen before them: the epochs whose averaged snapshot is retained. -/
def retainedEpochs (f : Nat → Rat) (n : Nat) : List Nat :=
  (List.range n).filter (fun i => decide (f i ≥ bestScoreUpTo f i))

/-- Flag value of save_model after n epochs of the dev-configured loop:
initially true, afterwards the last epoch's retention decision. -/
def saveFlagAfter (f : Nat → Rat) : Nat → Bool
  | 0 => true
  | n + 1 => decide (f n ≥ bestScoreUpTo f n)

/-- Abstract description of one element of the files list consumed by
read_passages: an in-memory Passage object, an existing file together
with the result of the standard-format reader when it succeeds and the
extension-conversion or plain-text fallback result otherwise, or a
missing path.  The external readers are abstracted to the passage and
id they produce. -/
inductive FileDesc (P : Type) where
  | passage (p : P) (id : String)
  | file (name : String) (std : Option (P × String)) (fallback : P × String)
  | missing (name : String)

/-- Embedding of Parser.read_passage (parse.py lines 288-314): a Passage
object is returned as is; an existing file is read in the standard XML
or binary format, falling back to extension-based conversion or plain
text when the standard reader raises; a non-existing path raises IOError
with the distinct file-not-found message. -/
def read_passage {P : Type} : FileDesc P → Except String (P × String)
  | FileDesc.passage p id => Except.ok (p, id)
  | FileDesc.file _ (some r) _ => Except.ok r
  | FileDesc.file _ none fb => Except.ok fb
  | FileDesc.missing name => Except.error ("File not found: " ++ name)

/-- Embedding of read_passages (parse.py lines 323-332, with splitting
not configured): passages are yielded in order, and an exception from
read_passage propagates out of the generator, so the result is the
passages yielded before the first failure together with the escaping
error, the remaining files never being read. -/
def read_passages {P : Type} :
    List (FileDesc P) → List (P × String) × Option String
  | [] => ([], none)
  | d :: rest =>
    match read_passage d with
    | Except.error e => ([], some e)
    | Except.ok r =>
      (r :: (read_passages rest).1, (read_passages rest).2)

end UccaParse

namespace UccaParse

theorem firstRepeatIdx_eq_none (history : List Nat) (l : List Nat)
    (hnd : l.Nodup) (hdisj : ∀ x ∈ l, x ∉ history) :
    firstRepeatIdx history l = none := by
  induction l generalizing history with
  | nil => rfl
  | cons h rest ih =>
    have hmem : h ∉ history := hdisj h (List.mem_cons_self h rest)
    have hdisj1 : ∀ x ∈ rest, x ∉ h :: history := by
      intro x hx
      simp only [List.mem_cons, not_or]
      exact ⟨fun hxh => (List.nodup_cons.mp hnd).1 (hxh ▸ hx),
             hdisj x (List.mem_cons_of_mem h hx)⟩
    simp only [firstRepeatIdx, check_loop, if_neg hmem]
    rw [ih (h :: history) (List.Nodup.of_cons hnd) hdisj1]
    rfl

theorem firstRepeatIdx_eq_some (history : List Nat) (l : List Nat) (j : Nat)
    (hj : firstRepeatIdx history l = some j) :
    j < l.length ∧ (∀ x ∈ l.take j, x ∉ history) ∧ (l.take j).Nodup ∧
      (l.getD j 0 ∈ history ∨ l.getD j 0 ∈ l.take j) := by
  induction l generalizing history j with
  | nil => simp [firstRepeatIdx] at hj
  | cons h rest ih =>
    by_cases hmem : h ∈ history
    · simp only [firstRepeatIdx, check_loop, if_pos hmem, Option.some.injEq] at hj
      subst hj
      refine ⟨by simp, by simp, by simp, Or.inl (by simpa using hmem)⟩
    · simp only [firstRepeatIdx, check_loop, if_neg hmem, Option.map_eq_some'] at hj
      obtain ⟨j1, hj1, rfl⟩ := hj
      obtain ⟨hlen, hdisj, hnd, hlast⟩ := ih (h :: history) j1 hj1
      refine ⟨by simpa using hlen, ?_, ?_, ?_⟩
      · intro x hx
        rcases List.mem_cons.mp (by simpa using hx) with hxh | hxr
        · subst hxh; exact hmem
        · have := hdisj x hxr
          simp only [List.mem_cons, not_or] at this
          exact this.2
      · rw [List.take_succ_cons, List.nodup_cons]
        refine ⟨?_, hnd⟩
        intro hcontra
        have := hdisj h hcontra
        simp at this
      · have hget : (h :: rest).getD (j1 + 1) 0 = rest.getD j1 0 := rfl
        rw [hget, List.take_succ_cons]
        rcases hlast with hin | hin
        · rcases List.mem_cons.mp hin with hxh | hxr
          · exact Or.inr (by rw [hxh]; exact List.mem_cons_self h _)
          · exact Or.inl hxr
        · exact Or.inr (List.mem_cons_of_mem h hin)

/-- C6: with loop checking enabled, the transition-loop error is raised
exactly on the second occurrence of a state fingerprint within one
input's history, never on the first: each configuration's hash is first
tested against the history and then added, so a run through
pairwise-distinct fingerprints never raises, and when the run does raise
at index j, the fingerprints before j are pairwise distinct and the
fingerprint at j has occurred exactly twice among the first j+1
fingerprints. -/
theorem check_loop_second_occurrence (hashes : List Nat) :
    (hashes.Nodup → runLoopCheck hashes = none) ∧
    (∀ j, runLoopCheck hashes = some j →
      j < hashes.length ∧ (hashes.take j).Nodup ∧
        (hashes.take (j + 1)).count (hashes.getD j 0) = 2) := by
  constructor
  · intro hnd
    exact firstRepeatIdx_eq_none [] hashes hnd (by simp)
  · intro j hj
    obtain ⟨hlen, _, hnd, hlast⟩ := firstRepeatIdx_eq_some [] hashes j hj
    have hmem : hashes.getD j 0 ∈ hashes.take j := by
      rcases hlast with hin | hin
      · simp at hin
      · exact hin
    refine ⟨hlen, hnd, ?_⟩
    have htake : hashes.take (j + 1) = hashes.take j ++ [hashes.getD j 0] := by
      rw [List.take_succ, List.getElem?_eq_getElem hlen]
      rw [List.getD_eq_getElem hashes 0 hlen]
      rfl
    rw [htake, List.count_append]
    have hc1 : (hashes.take j).count (hashes.getD j 0) = 1 :=
      List.count_eq_one_of_mem hnd hmem
    rw [hc1]
    simp [List.count_singleton]

/-- Witness for check_loop_second_occurrence: the distinct run [1, 2, 3]
never raises, and the run [1, 2, 1] raises at index 2, where the first
two fingerprints are distinct and fingerprint 1 has occurred twice. -/
theorem check_loop_second_occurrence_witness :
    runLoopCheck [1, 2, 3] = none ∧
    (2 < ([1, 2, 1] : List Nat).length ∧ (([1, 2, 1] : List Nat).take 2).Nodup ∧
      (([1, 2, 1] : List Nat).take 3).count (([1, 2, 1] : List Nat).getD 2 0) = 2) :=
  ⟨(check_loop_second_occurrence [1, 2, 3]).1 (by decide),
   (check_loop_second_occurrence [1, 2, 1]).2 2 (by decide)⟩

/-- C10: in training mode with verification disabled, a successfully
parsed input yields a triplet whose first element is the original gold
passage object itself (the identical value as the second element), and
no graph is materialized from the state (the predicted slot is the orig
constructor, never the graph constructor). -/
theorem train_mode_yields_gold_object {P G : Type} (p : P) (cp : Bool → G) :
    processPassage true false p cp (Except.ok ()) =
      Except.ok { logged := none, failed := false, origPassage := p,
                  predicted := Predicted.orig p } :=
  rfl

/-- C7: an oracle failure while computing true actions is swallowed in
inference and dev mode (the step proceeds with an empty true-action set
and processing continues), but in training mode it is promoted to the
parser error raised during training, which Parser.parse re-raises,
aborting the whole batch rather than just the current input. -/
theorem oracle_failure_handling {P G : Type} (e : String) (verify : Bool)
    (p : P) (cp : Bool → G)
    (rest : List (P × (Bool → G) × Except String Unit)) :
    oracleTrueActions false (some (Except.error e)) = Except.ok [] ∧
    oracleTrueActions true (some (Except.error e)) =
      Except.error "Error in oracle during training" ∧
    processBatch true verify
        ((p, cp, Except.error "Error in oracle during training") :: rest) =
      Except.error "Error in oracle during training" :=
  ⟨rfl, rfl, rfl⟩

/-- Counterexample to C5 as stated: in test mode, an input whose
parse_passage raises a transition-loop ParserException is logged and
marked failed, but the yielded first element is a graph materialized
from the partial state by create_passage, not an absent output: the
claim that a failed input yields no output graph is false. -/
theorem parse_failure_yields_graph_counterexample :
    processPassage (P := Nat) (G := Nat) false false 7 (fun _ => 42)
        (Except.error "Transition loop") =
      Except.ok { logged := some "Transition loop", failed := true,
                  origPassage := 7, predicted := Predicted.graph 42 } ∧
    (Predicted.graph 42 : Predicted Nat Nat) ≠ Predicted.orig 7 :=
  ⟨rfl, by decide⟩

/-- C5 as amended: in non-training mode, an input on which parse_passage
fails yields the one-line diagnostic, is marked failed, still has a
graph materialized from the partial state as its yielded first element,
and the batch continues with the next input; in training mode the
failure propagates and aborts the run. -/
theorem parse_failure_recovery {P G : Type} (verify : Bool) (p : P)
    (cp : Bool → G) (e : String)
    (rest : List (P × (Bool → G) × Except String Unit))
    (rs : List (InputResult P G))
    (hrest : processBatch false verify rest = Except.ok rs) :
    processPassage false verify p cp (Except.error e) =
      Except.ok { logged := some e, failed := true, origPassage := p,
                  predicted := Predicted.graph (cp verify) } ∧
    processBatch false verify ((p, cp, Except.error e) :: rest) =
      Except.ok ({ logged := some e, failed := true, origPassage := p,
                   predicted := Predicted.graph (cp verify) } :: rs) ∧
    (∀ rest2 : List (P × (Bool → G) × Except String Unit),
      processBatch true verify ((p, cp, Except.error e) :: rest2) =
        Except.error e) := by
  refine ⟨rfl, ?_, fun rest2 => rfl⟩
  simp [processBatch, processPassage, hrest]

theorem firstArgmax_eq_none_iff (key : Nat → Int) (l : List Nat) :
    firstArgmax key l = none ↔ l = [] := by
  cases l <;> simp [firstArgmax]

theorem firstArgmax_exists (key : Nat → Int) (l : List Nat) (h : l ≠ []) :
    ∃ b, firstArgmax key l = some b := by
  cases l with
  | nil => exact absurd rfl h
  | cons i rest => exact ⟨_, rfl⟩

theorem firstArgmax_split (key : Nat → Int) (l : List Nat) (b : Nat)
    (hb : firstArgmax key l = some b) :
    ∃ l1 l2, l = l1 ++ b :: l2 ∧ (∀ x ∈ l1, key x < key b) ∧
      (∀ x ∈ l2, key x ≤ key b) := by
  induction l generalizing b with
  | nil => simp [firstArgmax] at hb
  | cons i rest ih =>
    simp only [firstArgmax, Option.some.injEq] at hb
    cases hrest : firstArgmax key rest with
    | none =>
      rw [hrest] at hb
      have hnil : rest = [] := (firstArgmax_eq_none_iff key rest).mp hrest
      subst hnil
      exact ⟨[], [], by simp [hb.symm], by simp, by simp⟩
    | some b1 =>
      rw [hrest] at hb
      have hb2 : (if key b1 > key i then b1 else i) = b := hb
      obtain ⟨l1, l2, hsplit, hlt, hle⟩ := ih b1 hrest
      by_cases hgt : key b1 > key i
      · rw [if_pos hgt] at hb2
        subst hb2
        refine ⟨i :: l1, l2, by simp [hsplit], ?_, hle⟩
        intro x hx
        rcases List.mem_cons.mp hx with hxi | hxl
        · exact hxi ▸ hgt
        · exact hlt x hxl
      · rw [if_neg hgt] at hb2
        subst hb2
        refine ⟨[], rest, by simp, by simp, ?_⟩
        intro x hx
        have hble : key b1 ≤ key i := le_of_not_lt hgt
        rw [hsplit] at hx
        rcases List.mem_append.mp hx with hx1 | hx2
        · exact le_of_lt (lt_of_lt_of_le (hlt x hx1) hble)
        · rcases List.mem_cons.mp hx2 with hxb | hxl
          · exact hxb ▸ hble
          · exact le_trans (hle x hxl) hble

theorem firstArgmax_mem_le (key : Nat → Int) (l : List Nat) (b : Nat)
    (hb : firstArgmax key l = some b) :
    b ∈ l ∧ ∀ x ∈ l, key x ≤ key b := by
  obtain ⟨l1, l2, hsplit, hlt, hle⟩ := firstArgmax_split key l b hb
  subst hsplit
  refine ⟨by simp, ?_⟩
  intro x hx
  rcases List.mem_append.mp hx with hx1 | hx2
  · exact le_of_lt (hlt x hx1)
  · rcases List.mem_cons.mp hx2 with hxb | hxl
    · exact hxb ▸ le_refl _
    · exact hle x hxl

theorem mem_sortedIdsDesc (key : Nat → Int) (ids : List Nat) (j : Nat) :
    j ∈ sortedIdsDesc key ids ↔ j ∈ ids := by
  simp [sortedIdsDesc]

theorem sortedIdsDesc_pairwise (key : Nat → Int) (ids : List Nat) :
    (sortedIdsDesc key ids).Pairwise (fun a b => key b ≤ key a) := by
  rw [sortedIdsDesc, List.pairwise_reverse]
  have h := @List.sorted_mergeSort Nat (fun a b => decide (key a ≤ key b))
    (by intro a b c hab hbc
        simp only [decide_eq_true_eq] at *
        exact le_trans hab hbc)
    (by intro a b
        simp only [Bool.or_eq_true, decide_eq_true_eq]
        exact le_total (key a) (key b))
    ids
  exact h.imp (fun hab => by simpa using hab)

/-- C1: predict_action returns the selected action of the arg-max id
when that action is valid in the current state (and the arg-max id has
the globally maximal classifier score); any returned action is valid and
comes from an id such that every strictly higher-scoring id selects an
invalid action (first valid in descending score order); and the call
fails with the no-valid-actions error exactly when no action id selects
a valid action. -/
theorem predict_action_spec (all : List Action) (isValid : Action → Bool)
    (ids : List Nat) (key : Nat → Int) (trueActions : List Action)
    (hne : ids ≠ []) :
    (predict_action all isValid ids key trueActions =
        Except.error "No valid actions available" ↔
      ∀ i ∈ ids, isValid (select_action all trueActions i) = false) ∧
    (∀ a, predict_action all isValid ids key trueActions = Except.ok a →
      isValid a = true ∧
      ∃ i ∈ ids, a = select_action all trueActions i ∧
        ∀ j ∈ ids, key i < key j →
          isValid (select_action all trueActions j) = false) ∧
    (∀ b, firstArgmax key ids = some b →
      isValid (select_action all trueActions b) = true →
      predict_action all isValid ids key trueActions =
        Except.ok (select_action all trueActions b) ∧
      ∀ j ∈ ids, key j ≤ key b) := by
  obtain ⟨b, hb⟩ := firstArgmax_exists key ids hne
  obtain ⟨hbmem, hbmax⟩ := firstArgmax_mem_le key ids b hb
  by_cases hv : isValid (select_action all trueActions b) = true
  · have hpa : predict_action all isValid ids key trueActions =
        Except.ok (select_action all trueActions b) := by
      simp [predict_action, hb, hv]
    refine ⟨⟨?_, ?_⟩, ?_, ?_⟩
    · intro h
      rw [hpa] at h
      cases h
    · intro hall
      rw [hall b hbmem] at hv
      cases hv
    · intro a ha
      rw [hpa] at ha
      injection ha with ha
      subst ha
      exact ⟨hv, b, hbmem, rfl,
        fun j hj hlt => absurd (hbmax j hj) (not_le.mpr hlt)⟩
    · intro b1 hb1 _
      rw [hb] at hb1
      injection hb1 with hb1
      subst hb1
      exact ⟨hpa, hbmax⟩
  · have hpa : predict_action all isValid ids key trueActions =
        (match ((sortedIdsDesc key ids).map
            (select_action all trueActions)).find? isValid with
          | some a => Except.ok a
          | none => Except.error "No valid actions available") := by
      simp [predict_action, hb, hv]
    rw [List.find?_map] at hpa
    cases hF : (sortedIdsDesc key ids).find?
        (isValid ∘ select_action all trueActions) with
    | some i0 =>
      rw [hF] at hpa
      obtain ⟨hvi0, as, bs, hsplit, hinv⟩ := List.find?_eq_some.mp hF
      have hi0mem : i0 ∈ ids := by
        rw [← mem_sortedIdsDesc key ids, hsplit]
        simp
      refine ⟨⟨?_, ?_⟩, ?_, ?_⟩
      · intro h
        rw [hpa] at h
        cases h
      · intro hall
        have := hall i0 hi0mem
        simp only [Function.comp] at hvi0
        rw [this] at hvi0
        cases hvi0
      · intro a ha
        rw [hpa] at ha
        injection ha with ha
        subst ha
        simp only [Function.comp] at hvi0
        refine ⟨hvi0, i0, hi0mem, rfl, ?_⟩
        intro j hj hlt
        have hjmem : j ∈ sortedIdsDesc key ids :=
          (mem_sortedIdsDesc key ids j).mpr hj
        rw [hsplit] at hjmem
        rcases List.mem_append.mp hjmem with hjas | hjbs
        · have := hinv j hjas
          simpa using this
        · exfalso
          have hp := sortedIdsDesc_pairwise key ids
          rw [hsplit] at hp
          have hp2 := (List.pairwise_append.mp hp).2.1
          rcases List.mem_cons.mp hjbs with hji | hjb
          · exact absurd hlt (by rw [hji]; exact lt_irrefl _)
          · have := (List.pairwise_cons.mp hp2).1 j hjb
            exact absurd hlt (not_lt.mpr this)
      · intro b1 hb1 hv1
        rw [hb] at hb1
        injection hb1 with hb1
        subst hb1
        exact absurd hv1 hv
    | none =>
      rw [hF] at hpa
      have hall : ∀ i ∈ ids, isValid (select_action all trueActions i) = false := by
        intro i hi
        have := List.find?_eq_none.mp hF i
          ((mem_sortedIdsDesc key ids i).mpr hi)
        simpa using this
      refine ⟨⟨fun _ => hall, fun _ => hpa⟩, ?_, ?_⟩
      · intro a ha
        rw [hpa] at ha
        cases ha
      · intro b1 hb1 hv1
        rw [hb] at hb1
        injection hb1 with hb1
        subst hb1
        exact absurd hv1 hv

theorem bestScoreUpTo_succ (f : Nat → Rat) (n : Nat) :
    bestScoreUpTo f (n + 1) = max (bestScoreUpTo f n) (f n) := by
  simp [bestScoreUpTo, List.range_succ]

theorem retainedEpochs_succ (f : Nat → Rat) (n : Nat) :
    retainedEpochs f (n + 1) =
      retainedEpochs f n ++ if f n ≥ bestScoreUpTo f n then [n] else [] := by
  simp only [retainedEpochs, List.range_succ, List.filter_append]
  congr 1
  by_cases h : f n ≥ bestScoreUpTo f n
  · rw [if_pos h]
    simp [h]
  · rw [if_neg h]
    simp [h]

theorem train_fold_dev {M : Type} (ops : TrainOps M) (decay : Rat)
    (modelFile : Option String) (f : Nat → Rat) (initModel : M)
    (initLr : Rat) :
    ∀ n, (List.range n).foldl (trainEpochStep ops decay modelFile (some f))
        { model := initModel, learning_rate := initLr, best_score := 0,
          save_model := true, best_model := none, retainLog := [],
          saveLog := [] } =
      { model := ops.runEpoch^[n] initModel
        learning_rate := initLr * decay ^ n
        best_score := bestScoreUpTo f n
        save_model := saveFlagAfter f n
        best_model := (retainedEpochs f n).getLast?.map
          (fun j => ops.average (ops.runEpoch^[j + 1] initModel))
        retainLog := retainedEpochs f n
        saveLog := if modelFile.isSome then retainedEpochs f n else [] }
  | 0 => by
    simp [bestScoreUpTo, retainedEpochs, saveFlagAfter]
  | n + 1 => by
    rw [List.range_succ, List.foldl_append,
      train_fold_dev ops decay modelFile f initModel initLr n]
    simp only [List.foldl_cons, List.foldl_nil, trainEpochStep]
    by_cases h : f n ≥ bestScoreUpTo f n
    · rw [decide_eq_true h, if_pos rfl, if_pos h]
      congr 1
      · exact (Function.iterate_succ_apply' ops.runEpoch n initModel).symm
      · rw [pow_succ, mul_assoc]
      · rw [bestScoreUpTo_succ, max_eq_right h]
      · rw [saveFlagAfter, decide_eq_true h]
      · rw [retainedEpochs_succ, if_pos h, List.getLast?_concat,
          Option.map_some', Function.iterate_succ_apply' ops.runEpoch n initModel]
      · rw [retainedEpochs_succ, if_pos h]
      · cases hmf : modelFile.isSome <;> simp [hmf, retainedEpochs_succ, h]
    · rw [decide_eq_false h, if_neg (by simp), if_neg h]
      congr 1
      · exact (Function.iterate_succ_apply' ops.runEpoch n initModel).symm
      · rw [pow_succ, mul_assoc]
      · rw [bestScoreUpTo_succ, max_eq_left (le_of_not_le h)]
      · rw [saveFlagAfter, decide_eq_false h]
      · rw [retainedEpochs_succ, if_neg h, List.append_nil]
      · rw [retainedEpochs_succ, if_neg h, List.append_nil]
      · cases hmf : modelFile.isSome <;> simp [hmf, retainedEpochs_succ, h]

theorem train_fold_nodev {M : Type} (ops : TrainOps M) (decay : Rat)
    (modelFile : Option String) (initModel : M) (initLr : Rat) :
    ∀ n, (List.range n).foldl (trainEpochStep ops decay modelFile none)
        { model := initModel, learning_rate := initLr, best_score := 0,
          save_model := true, best_model := none, retainLog := [],
          saveLog := [] } =
      { model := ops.runEpoch^[n] initModel
        learning_rate := initLr * decay ^ n
        best_score := 0
        save_model := true
        best_model := (List.range n).getLast?.map
          (fun j => ops.average (ops.runEpoch^[j + 1] initModel))
        retainLog := List.range n
        saveLog := if modelFile.isSome then List.range n else [] }
  | 0 => by
    simp
  | n + 1 => by
    rw [List.range_succ, List.foldl_append,
      train_fold_nodev ops decay modelFile initModel initLr n]
    simp only [List.foldl_cons, List.foldl_nil, trainEpochStep]
    rw [if_pos trivial]
    congr 1
    · exact (Function.iterate_succ_apply' ops.runEpoch n initModel).symm
    · rw [pow_succ, mul_assoc]
    · rw [List.getLast?_concat, Option.map_some',
        Function.iterate_succ_apply' ops.runEpoch n initModel]
    · cases hmf : modelFile.isSome <;> simp [hmf]

/-- C3: in multi-epoch training with a dev set configured, the epochs
whose averaged snapshot is retained (and saved, exactly when a model
file is configured) are exactly those whose dev score is at least the
best score seen so far — so a tie replaces the older model with the
newer one — and the final returned model is the averaged snapshot of the
last retained epoch; with no dev set configured, every epoch's snapshot
is retained and the returned model is the last epoch's averaged
snapshot. -/
theorem train_model_selection {M P : Type} (ops : TrainOps M) (decay : Rat)
    (modelFile : Option String) (initModel : M) (initLr : Rat)
    (p : P) (ps : List P) (f : Nat → Rat) (iterations : Nat) :
    (Parser.train ops decay modelFile initModel initLr (p :: ps) (some f)
        iterations).retainLog = retainedEpochs f iterations ∧
    (∀ i, i ∈ (Parser.train ops decay modelFile initModel initLr (p :: ps)
        (some f) iterations).retainLog ↔
      i < iterations ∧ f i ≥ bestScoreUpTo f i) ∧
    (Parser.train ops decay modelFile initModel initLr (p :: ps) (some f)
        iterations).saveLog =
      (if modelFile.isSome then retainedEpochs f iterations else []) ∧
    (Parser.train ops decay modelFile initModel initLr (p :: ps) (some f)
        iterations).model =
      (retainedEpochs f iterations).getLast?.map
        (fun j => ops.average (ops.runEpoch^[j + 1] initModel)) ∧
    (Parser.train ops decay modelFile initModel initLr (p :: ps) none
        iterations).retainLog = List.range iterations ∧
    (Parser.train ops decay modelFile initModel initLr (p :: ps) none
        iterations).model =
      (List.range iterations).getLast?.map
        (fun j => ops.average (ops.runEpoch^[j + 1] initModel)) := by
  have hdev := train_fold_dev ops decay modelFile f initModel initLr iterations
  have hnod := train_fold_nodev ops decay modelFile initModel initLr iterations
  refine ⟨?_, ?_, ?_, ?_, ?_, ?_⟩
  · simp [Parser.train, hdev]
  · intro i
    simp [Parser.train, hdev, retainedEpochs, List.mem_filter,
      List.mem_range]
  · simp [Parser.train, hdev]
  · simp [Parser.train, hdev]
  · simp [Parser.train, hnod]
  · simp [Parser.train, hnod]

theorem mem_foldIdx (n k i j : Nat) :
    j ∈ foldIdx n k i ↔ j < n ∧ j % k = i := by
  simp [foldIdx, List.mem_filter, List.mem_range]

/-- C4: k-fold cross-validation partitions the inputs into k folds by
position modulo k and, at iteration i, uses fold i as the dev set, fold
(i+1) mod k as the test set, and the concatenation of the remaining
folds as the training set; over 9 inputs with k = 3 there are exactly 3
folds of 3 inputs each, every input position is dev in exactly the
iteration equal to its position modulo 3 and test in exactly one other
iteration, and no position is both dev and test at the same iteration;
in general every position of the input belongs to exactly one fold. -/
theorem kfold_partition {α : Type} [Inhabited α] (l : List α)
    (h9 : l.length = 9) :
    (foldSlice l 3 0 = [l.getD 0 default, l.getD 3 default, l.getD 6 default] ∧
      foldSlice l 3 1 = [l.getD 1 default, l.getD 4 default, l.getD 7 default] ∧
      foldSlice l 3 2 = [l.getD 2 default, l.getD 5 default, l.getD 8 default]) ∧
    (∀ i, i < 3 → (foldSlice l 3 i).length = 3) ∧
    (cvDev l 3 0 = foldSlice l 3 0 ∧ cvTest l 3 0 = foldSlice l 3 1 ∧
      cvTrain l 3 0 = foldSlice l 3 2) ∧
    (cvDev l 3 1 = foldSlice l 3 1 ∧ cvTest l 3 1 = foldSlice l 3 2 ∧
      cvTrain l 3 1 = foldSlice l 3 0) ∧
    (cvDev l 3 2 = foldSlice l 3 2 ∧ cvTest l 3 2 = foldSlice l 3 0 ∧
      cvTrain l 3 2 = foldSlice l 3 1) ∧
    (∀ j, j < 9 → ∀ i, i < 3 → (j ∈ foldIdx 9 3 i ↔ i = j % 3)) ∧
    (∀ j, j < 9 → ∀ i, i < 3 →
      (j ∈ foldIdx 9 3 ((i + 1) % 3) ↔ i = (j % 3 + 2) % 3)) ∧
    (∀ i, i < 3 → ∀ j ∈ foldIdx 9 3 i, j ∉ foldIdx 9 3 ((i + 1) % 3)) ∧
    (∀ n k, 0 < k → ∀ j, j < n → ∃! i, i < k ∧ j ∈ foldIdx n k i) ∧
    (∀ i, i < 3 → foldSlice l 3 i =
      (foldIdx 9 3 i).map (fun j => l.getD j default)) := by
  have hgen : ∀ n k, 0 < k → ∀ j, j < n → ∃! i, i < k ∧ j ∈ foldIdx n k i := by
    intro n k hk j hj
    refine ⟨j % k, ⟨Nat.mod_lt j hk, (mem_foldIdx n k _ j).mpr ⟨hj, rfl⟩⟩, ?_⟩
    intro y hy
    exact ((mem_foldIdx n k y j).mp hy.2).2.symm
  rcases l with _ | ⟨a0, l⟩
  · simp at h9
  rcases l with _ | ⟨a1, l⟩
  · simp at h9
  rcases l with _ | ⟨a2, l⟩
  · simp at h9
  rcases l with _ | ⟨a3, l⟩
  · simp at h9
  rcases l with _ | ⟨a4, l⟩
  · simp at h9
  rcases l with _ | ⟨a5, l⟩
  · simp at h9
  rcases l with _ | ⟨a6, l⟩
  · simp at h9
  rcases l with _ | ⟨a7, l⟩
  · simp at h9
  rcases l with _ | ⟨a8, l⟩
  · simp at h9
  rcases l with _ | ⟨a9, l⟩
  · refine ⟨⟨?_, ?_, ?_⟩, ?_, ⟨rfl, rfl, ?_⟩, ⟨rfl, rfl, ?_⟩,
      ⟨rfl, rfl, ?_⟩, by decide, by decide, by decide, hgen, ?_⟩
    · simp [foldSlice, List.enum, List.enumFrom, List.filter]
    · simp [foldSlice, List.enum, List.enumFrom, List.filter]
    · simp [foldSlice, List.enum, List.enumFrom, List.filter]
    · intro i hi
      interval_cases i <;>
        simp [foldSlice, List.enum, List.enumFrom, List.filter]
    · simp [cvTrain, foldSlice, List.enum, List.enumFrom, List.filter,
        List.range_succ, List.flatMap]
    · simp [cvTrain, foldSlice, List.enum, List.enumFrom, List.filter,
        List.range_succ, List.flatMap]
    · simp [cvTrain, foldSlice, List.enum, List.enumFrom, List.filter,
        List.range_succ, List.flatMap]
    · intro i hi
      interval_cases i <;>
        simp [foldSlice, foldIdx, List.enum, List.enumFrom, List.filter,
          List.range_succ]
  · simp [List.length_cons] at h9

/-- Witness for kfold_partition over the inputs 0..8: fold 0 is the
stride [0, 3, 6] and iteration 0 trains on fold 2. -/
theorem kfold_partition_witness :
    foldSlice [0, 1, 2, 3, 4, 5, 6, 7, 8] 3 0 = [0, 3, 6] ∧
    cvTrain [0, 1, 2, 3, 4, 5, 6, 7, 8] 3 0 =
      foldSlice [0, 1, 2, 3, 4, 5, 6, 7, 8] 3 2 :=
  ⟨(kfold_partition [0, 1, 2, 3, 4, 5, 6, 7, 8] rfl).1.1,
   (kfold_partition [0, 1, 2, 3, 4, 5, 6, 7, 8] rfl).2.2.1.2.2⟩

/-- C8: a training call with an empty list of passages and a configured
model file loads the model from that file and returns it, performing no
training iterations, no snapshot retention or saving, and leaving the
learning rate unchanged, independently of the classifier operations, the
dev set, and the requested iteration count. -/
theorem train_no_passages_loads_model {M P : Type} (ops : TrainOps M)
    (decay : Rat) (file : String) (initModel : M) (initLr : Rat)
    (dev : Option (Nat → Rat)) (iterations : Nat) :
    Parser.train (P := P) ops decay (some file) initModel initLr [] dev
        iterations =
      { model := some (ops.load file), learning_rate := initLr,
        epochsRun := 0, retainLog := [], saveLog := [] } :=
  rfl

theorem bestTrueId_split (key : Nat → Int) (trueActions : List Action)
    (hne : trueActions ≠ []) :
    ∃ t1 t2 a, trueActions = t1 ++ a :: t2 ∧
      (if trueActions.length > 1 then
          (firstArgmax key (trueActions.map Action.id)).getD 0
        else (trueActions.headD default).id) = a.id ∧
      (∀ x ∈ t1, key x.id < key a.id) ∧ (∀ x ∈ t2, key x.id ≤ key a.id) := by
  by_cases hlen : trueActions.length > 1
  · have hmapne : trueActions.map Action.id ≠ [] := by
      cases trueActions with
      | nil => exact absurd rfl hne
      | cons a ts => simp
    obtain ⟨b0, hb0⟩ := firstArgmax_exists key _ hmapne
    obtain ⟨l1, l2, hsplit, hlt, hle⟩ := firstArgmax_split key _ b0 hb0
    obtain ⟨t1, rest2, hta, hm1, hm2⟩ := List.map_eq_append_iff.mp hsplit
    obtain ⟨a, t2, hr2, hai, hm3⟩ := List.map_eq_cons_iff.mp hm2
    refine ⟨t1, t2, a, by rw [hta, hr2], ?_, ?_, ?_⟩
    · rw [if_pos hlen, hb0, ← hai]
      rfl
    · intro x hx
      have hxid : x.id ∈ l1 := hm1 ▸ List.mem_map_of_mem Action.id hx
      rw [hai]
      exact hlt x.id hxid
    · intro x hx
      have hxid : x.id ∈ l2 := hm3 ▸ List.mem_map_of_mem Action.id hx
      rw [hai]
      exact hle x.id hxid
  · cases trueActions with
    | nil => exact absurd rfl hne
    | cons a ts =>
      have hts : ts = [] := by
        cases ts with
        | nil => rfl
        | cons b bs => simp at hlen
      subst hts
      exact ⟨[], [], a, rfl, by rw [if_neg hlen]; rfl, by simp, by simp⟩

/-- C2: in training mode, when the oracle's true-action set is non-empty
and the predicted action is not in it under (kind, label) equality, the
decision step records a perceptron update from the predicted action id
toward the best true action id, which attains the maximal classifier
score among the true actions with ties broken by first-encountered
order; the update rate is the learning rate multiplied by the importance
factor exactly when the best true action is the swap action, and the
action actually applied is the random choice among all true actions
(every true action is reachable for some draw), not the predicted one. -/
theorem train_update_step (all : List Action) (key : Nat → Int)
    (lr importance : Rat) (predicted : Action) (trueActions : List Action)
    (rand : Nat) (hne : trueActions ≠ [])
    (hnotin : trueActions.any (fun t => predicted.aeq t) = false) :
    ∃ b rate,
      decideAction all key lr importance true predicted trueActions rand =
        { correct := false, update := some (predicted.id, b, rate),
          applied := trueActions.getD (rand % trueActions.length) default } ∧
      (∃ t1 t2 a, trueActions = t1 ++ a :: t2 ∧ b = a.id ∧
        (∀ x ∈ t1, key x.id < key b) ∧ (∀ x ∈ t2, key x.id ≤ key b)) ∧
      ((Action.by_id all b).is_swap = true → rate = lr * importance) ∧
      ((Action.by_id all b).is_swap = false → rate = lr) ∧
      trueActions.getD (rand % trueActions.length) default ∈ trueActions ∧
      (∀ t ∈ trueActions, ∃ r,
        (decideAction all key lr importance true predicted trueActions r).applied
          = t) := by
  have hempty : trueActions.isEmpty = false := by
    cases trueActions with
    | nil => exact absurd rfl hne
    | cons a ts => rfl
  obtain ⟨t1, t2, a, hsplit, hbid, hlt, hle⟩ := bestTrueId_split key trueActions hne
  have hd : ∀ r, decideAction all key lr importance true predicted trueActions r =
      { correct := false
        update := some (predicted.id, a.id,
          if (Action.by_id all a.id).is_swap then lr * importance else lr)
        applied := trueActions.getD (r % trueActions.length) default } := by
    intro r
    have hbid2 := hbid
    simp only [gt_iff_lt, List.headD_eq_head?_getD] at hbid2
    simp [decideAction, hempty, hnotin, randChoice, hbid2]
  have hlen : 0 < trueActions.length := List.length_pos.mpr hne
  refine ⟨a.id, if (Action.by_id all a.id).is_swap then lr * importance else lr,
    hd rand, ⟨t1, t2, a, hsplit, rfl, hlt, hle⟩, ?_, ?_, ?_, ?_⟩
  · intro hsw
    rw [if_pos hsw]
  · intro hsw
    rw [if_neg (by simp [hsw])]
  · have hmod : rand % trueActions.length < trueActions.length :=
      Nat.mod_lt _ hlen
    rw [List.getD_eq_getElem _ _ hmod]
    exact List.getElem_mem hmod
  · intro t ht
    obtain ⟨n, hn, hnt⟩ := List.mem_iff_getElem.mp ht
    refine ⟨n, ?_⟩
    rw [hd n]
    have hmodn : n % trueActions.length = n := Nat.mod_eq_of_lt hn
    show trueActions.getD (n % trueActions.length) default = t
    rw [hmodn, List.getD_eq_getElem _ _ hn]
    exact hnt

/-- Witness for train_update_step: three actions with the swap action
(kind 6) the highest-scoring true action; the decision step is not
counted correct and applies the randomly drawn true action. -/
theorem train_update_step_witness :
    (decideAction [⟨0, 0, none, none⟩, ⟨1, 1, none, none⟩, ⟨2, 6, none, none⟩]
        (fun i => (i : Int)) 1 5 true ⟨0, 0, none, none⟩
        [⟨1, 1, none, none⟩, ⟨2, 6, none, none⟩] 3).correct = false ∧
    (decideAction [⟨0, 0, none, none⟩, ⟨1, 1, none, none⟩, ⟨2, 6, none, none⟩]
        (fun i => (i : Int)) 1 5 true ⟨0, 0, none, none⟩
        [⟨1, 1, none, none⟩, ⟨2, 6, none, none⟩] 3).applied =
      ⟨2, 6, none, none⟩ := by
  obtain ⟨b, rate, hd, hspec, hsw, hnsw, hmem, hsur⟩ :=
    train_update_step [⟨0, 0, none, none⟩, ⟨1, 1, none, none⟩, ⟨2, 6, none, none⟩]
      (fun i => (i : Int)) 1 5 ⟨0, 0, none, none⟩
      [⟨1, 1, none, none⟩, ⟨2, 6, none, none⟩] 3 (by decide) (by decide)
  constructor
  · rw [hd]
  · rw [hd]
    rfl

/-- Witness for predict_action_spec: a two-action vocabulary where every
action is valid; the arg-max id is 1 and the theorem returns its
selected action with the maximal-score guarantee. -/
theorem predict_action_spec_witness :
    predict_action [⟨0, 0, none, none⟩, ⟨1, 1, none, none⟩] (fun _ => true)
        [0, 1] (fun i => (i : Int)) [] =
      Except.ok (select_action [⟨0, 0, none, none⟩, ⟨1, 1, none, none⟩] [] 1) ∧
    ∀ j ∈ ([0, 1] : List Nat), (j : Int) ≤ ((1 : Nat) : Int) :=
  (predict_action_spec [⟨0, 0, none, none⟩, ⟨1, 1, none, none⟩] (fun _ => true)
    [0, 1] (fun i => (i : Int)) [] (by decide)).2.2 1 (by decide) (by decide)

/-- Counterexample to C9 as stated: a batch of a missing file followed
by a readable passage aborts at the missing file with the distinct
file-not-found error and never reads the second input, although the
second input alone reads fine — the missing file is not fatal only for
its own path. -/
theorem read_passages_abort_counterexample :
    read_passages [FileDesc.missing "a", FileDesc.passage (5 : Nat) "p1"] =
      ([], some "File not found: a") ∧
    read_passages [FileDesc.passage (5 : Nat) "p1"] = ([(5, "p1")], none) :=
  ⟨rfl, rfl⟩

/-- C9 as amended: a missing path fails with the distinct file-not-found
message and the failure propagates out of the batch read, so the
remaining files are not read; an existing file that the standard-format
reader cannot parse does not abort — reading falls back to conversion or
plain text; and a file that reads successfully contributes its passage
while the rest of the batch proceeds. -/
theorem read_passages_propagates_missing {P : Type} (name : String)
    (rest : List (FileDesc P)) (d : FileDesc P) (r : P × String)
    (hd : read_passage d = Except.ok r) :
    read_passages (FileDesc.missing name :: rest) =
      ([], some ("File not found: " ++ name)) ∧
    (∀ fb : P × String,
      read_passage (FileDesc.file name none fb) = Except.ok fb) ∧
    read_passages (d :: rest) =
      (r :: (read_passages rest).1, (read_passages rest).2) := by
  refine ⟨rfl, fun fb => rfl, ?_⟩
  simp only [read_passages, hd]

/-- Witness for read_passages_propagates_missing: a concrete batch where
the successfully read passage is followed by a missing file. -/
theorem read_passages_propagates_missing_witness :
    read_passages [FileDesc.missing "a", FileDesc.passage (5 : Nat) "p"] =
      ([], some ("File not found: " ++ "a")) ∧
    (∀ fb : Nat × String,
      read_passage (FileDesc.file "a" none fb) = Except.ok fb) ∧
    read_passages [FileDesc.passage (5 : Nat) "p", FileDesc.missing "b"] =
      ([(5, "p")], some "File not found: b") :=
  read_passages_propagates_missing "a" [FileDesc.missing "b"]
    (FileDesc.passage 5 "p") (5, "p") rfl

/-- Witness for parse_failure_recovery at a concrete failing input
followed by an empty remainder of the batch. -/
theorem parse_failure_recovery_witness :
    processPassage (P := Nat) (G := Nat) false true 3 (fun _ => 9)
        (Except.error "err") =
      Except.ok { logged := some "err", failed := true, origPassage := 3,
                  predicted := Predicted.graph 9 } ∧
    processBatch false true [((3 : Nat), fun _ => (9 : Nat), Except.error "err")] =
      Except.ok [{ logged := some "err", failed := true, origPassage := 3,
                   predicted := Predicted.graph 9 }] ∧
    (∀ rest2 : List (Nat × (Bool → Nat) × Except String Unit),
      processBatch true true (((3 : Nat), fun _ => (9 : Nat), Except.error "err") :: rest2) =
        Except.error "err") :=
  parse_failure_recovery true 3 (fun _ => 9) "err" [] [] rfl

end UccaParse
